import Mathlib

set_option maxRecDepth 4000

/- The four core rational operations are `@[irreducible]` by default, which
   blocks `decide`-style evaluation of the embedding on concrete tables;
   re-marking them semireducible only affects elaboration (the kernel
   ignores reducibility annotations). -/
attribute [local semireducible] Rat.mul Rat.add Rat.sub Rat.inv Rat.ofScientific

/- Shallow embedding of the heuristic tabular-data normalizer of `src/main.py`:
   cell normalization (`to_number_and_is_percent`), table cleaning
   (`clean_table`), orientation detection plus long-form transformation
   (`to_long_vertical`, `to_long_horizontal`), and table selection
   (`pick_first_visualizable_long`).

   Modelling conventions:
   * Python strings are Lean `String`s; the regex classes `\d` / `\s` and
     `str.strip()` are modelled over the ASCII digit and whitespace
     characters (the Unicode extensions are not exercised by this program).
   * Python floats are modelled as exact rationals `ℚ`.  The float literal
     `0.6` is read as the rational `3 / 5`; the two comparisons coincide for
     every table with fewer than about `10 ^ 16` rows.  String-to-float
     conversion (`float(...)` and `pd.to_numeric(..., errors="coerce")`) is
     modelled by `parseFloat`; the special spellings `inf` / `nan` and `_`
     digit separators are not reachable from the strings this program feeds
     to the parsers and are left out.  Where the exactness of an arithmetic
     result is itself at issue (claim C9), the program's IEEE-754 binary64
     rounding is modelled explicitly by `roundB64` and the double-semantics
     normalizer `to_number_double`.
   * A missing value (`None` / `NaN`) is `Option.none`; a pandas `DataFrame`
     is a list of column names together with a row-major grid of cells.
     Default integer column labels `0, 1, ...` are represented by their
     decimal strings, which is faithful for every use the program makes of
     them (`str(c)` based matching and `int(str(c))` based parsing). -/

/- Character classes: `\s` / `str.strip()` whitespace, ASCII digits,
   and the `[\d,]` class of `NUM_RE`. -/

def isWS (c : Char) : Bool :=
  c == ' ' || c == '\t' || c == '\n' || c == '\r' || c == '\x0b' || c == '\x0c'

def isDigitOrComma (c : Char) : Bool :=
  c.isDigit || c == ','

/- `str.strip()`. -/

def trimL (l : List Char) : List Char := l.dropWhile isWS

def trimR (l : List Char) : List Char := (l.reverse.dropWhile isWS).reverse

def strTrim (s : String) : String := String.mk (trimR (trimL s.data))

/- Substring test, modelling `re.search` of a literal pattern. -/

def startsWithChars : List Char → List Char → Bool
  | [], _ => true
  | _ :: _, [] => false
  | p :: ps, c :: cs => p == c && startsWithChars ps cs

def containsChars (pat : List Char) : List Char → Bool
  | [] => startsWithChars pat []
  | c :: t => startsWithChars pat (c :: t) || containsChars pat t

/- Decimal rendering of a natural number, as Python `str(i)` produces for
   the indices used in `f"col_{i}"` and `f"row_{i}"`. -/

def digitChar (k : Nat) : Char :=
  if k = 0 then '0' else if k = 1 then '1' else if k = 2 then '2'
  else if k = 3 then '3' else if k = 4 then '4' else if k = 5 then '5'
  else if k = 6 then '6' else if k = 7 then '7' else if k = 8 then '8' else '9'

def natStrAux (n : Nat) (acc : List Char) : List Char :=
  if n < 10 then digitChar n :: acc
  else natStrAux (n / 10) (digitChar (n % 10) :: acc)
termination_by n
decreasing_by exact Nat.div_lt_self (by omega) (by omega)

def natStr (n : Nat) : String := String.mk (natStrAux n [])

/- Value of a list of ASCII digits. -/

def digitsToNat (l : List Char) : Nat :=
  l.foldl (fun a c => 10 * a + (c.toNat - 48)) 0

/- Model of CPython `float(s)` (and of the string parser behind
   `pd.to_numeric(..., errors="coerce")`, which accepts the same fragment on
   the strings reachable here): optional surrounding whitespace, an optional
   sign, a decimal mantissa `d+ | d+.d* | .d+`, and an optional exponent.
   Internal whitespace — e.g. the `"- 5"` admitted by `NUM_RE` — is a parse
   failure, exactly as in Python. -/

def parseFloat (s : String) : Option ℚ :=
  let l := trimR (trimL s.data)
  let sgn : ℚ := match l with
    | '-' :: _ => -1
    | _ => 1
  let l1 : List Char := match l with
    | '-' :: r => r
    | '+' :: r => r
    | _ => l
  let ip := l1.takeWhile Char.isDigit
  let r1 := l1.dropWhile Char.isDigit
  let mantAndRest : Option ℚ × List Char :=
    match r1 with
    | '.' :: r =>
      let fp := r.takeWhile Char.isDigit
      let rr := r.dropWhile Char.isDigit
      if ip.isEmpty && fp.isEmpty then (none, rr)
      else (some ((digitsToNat ip : ℚ) + (digitsToNat fp : ℚ) / (10 : ℚ) ^ fp.length), rr)
    | _ =>
      if ip.isEmpty then (none, r1) else (some (digitsToNat ip : ℚ), r1)
  match mantAndRest.1 with
  | none => none
  | some m =>
    match mantAndRest.2 with
    | [] => some (sgn * m)
    | e :: r3 =>
      if e = 'e' ∨ e = 'E' then
        let esgn : Int := match r3 with
          | '-' :: _ => -1
          | _ => 1
        let r4 : List Char := match r3 with
          | '-' :: r => r
          | '+' :: r => r
          | _ => r3
        let ed := r4.takeWhile Char.isDigit
        let r5 := r4.dropWhile Char.isDigit
        if ed.isEmpty ∨ ¬ r5.isEmpty then none
        else some (sgn * m * (10 : ℚ) ^ (esgn * (digitsToNat ed : Int)))
      else none

/- Model of Python `int(s)` on strings: surrounding whitespace, an optional
   sign, then decimal digits only. -/

def parseInt (s : String) : Option Int :=
  let l := trimR (trimL s.data)
  let sgn : Int := match l with
    | '-' :: _ => -1
    | _ => 1
  let l1 : List Char := match l with
    | '-' :: r => r
    | '+' :: r => r
    | _ => l
  if l1.isEmpty || ¬ l1.all Char.isDigit then none
  else some (sgn * (digitsToNat l1 : Int))

/- `is_year_like` from `src/main.py`. -/

def is_year_like (s : String) : Bool :=
  match parseInt (strTrim s) with
  | some v => decide (1900 ≤ v ∧ v ≤ 2100)
  | none => false

/- Executable model of the anchored regex
   `NUM_RE = ^-?\s*[\d,]+(?:\.\d+)?\s*%?$` (maximal munch is exact here
   because consecutive character classes are disjoint). -/

def numEnd (l4 : List Char) : Bool :=
  match l4.dropWhile isWS with
  | [] => true
  | ['%'] => true
  | _ => false

def numAfterDigits (l3 : List Char) : Bool :=
  match l3 with
  | '.' :: r =>
    let fd := r.takeWhile Char.isDigit
    if fd.isEmpty then false else numEnd (r.dropWhile Char.isDigit)
  | _ => numEnd l3

def numCore (l1 : List Char) : Bool :=
  let l2 := l1.dropWhile isWS
  let ds := l2.takeWhile isDigitOrComma
  if ds.isEmpty then false else numAfterDigits (l2.dropWhile isDigitOrComma)

def numReMatch (s : String) : Bool :=
  match s.data with
  | '-' :: r => numCore r
  | l => numCore l

/- Declarative reading of the same pattern, following the specification's
   wording: optional leading `-`, optional whitespace, digits with optional
   comma grouping, optional decimal fraction, optional whitespace, optional
   trailing `%`, anchored end to end. -/

def NumPat (s : String) : Prop :=
  ∃ sign ws1 ds frac ws2 pct : List Char,
    s.data = sign ++ ws1 ++ ds ++ frac ++ ws2 ++ pct ∧
    (sign = [] ∨ sign = ['-']) ∧
    (∀ c ∈ ws1, isWS c = true) ∧
    ds ≠ [] ∧ (∀ c ∈ ds, isDigitOrComma c = true) ∧
    (frac = [] ∨ ∃ fd, frac = '.' :: fd ∧ fd ≠ [] ∧ ∀ c ∈ fd, c.isDigit = true) ∧
    (∀ c ∈ ws2, isWS c = true) ∧
    (pct = [] ∨ pct = ['%'])

/- `s.replace("%", "").replace(",", "")`. -/

def stripPctComma (s : String) : String :=
  String.mk (s.data.filter (fun c => ¬ (c = '%' ∨ c = ',')))

/- `to_number_and_is_percent` from `src/main.py`. -/

def to_number_and_is_percent (x : Option String) : Option ℚ × Bool :=
  match x with
  | none => (none, false)
  | some x0 =>
    let s := strTrim x0
    if numReMatch s then
      let is_pct := decide (s.data.getLast? = some '%')
      match parseFloat (stripPctComma s) with
      | some val => (some (if is_pct then val / 100 else val), is_pct)
      | none => (none, false)
    else (none, false)

/- IEEE-754 binary64 rounding (round to nearest, ties to even), as CPython
   evaluates `float` arithmetic such as `val / 100.0`.  `ratFloorLog2` finds
   the binade of a positive rational (the initial estimate from the integer
   logarithms of numerator and denominator is off by at most one and is
   corrected by the two comparisons); `roundB64Pos` rounds the 53-bit
   mantissa.  Subnormals and overflow lie far outside the magnitudes this
   program handles and are not modelled. -/

def ilog2 : Nat → Nat → Nat
  | 0, _ => 0
  | fuel + 1, n => if n ≤ 1 then 0 else ilog2 fuel (n / 2) + 1

def natLog2 (n : Nat) : Nat := ilog2 n n

def ratFloorLog2 (x : ℚ) : ℤ :=
  let e0 : ℤ := (natLog2 x.num.toNat : ℤ) - (natLog2 x.den : ℤ)
  if x < 2 ^ e0 then e0 - 1 else if 2 ^ (e0 + 1) ≤ x then e0 + 1 else e0

def roundB64Pos (x : ℚ) : ℚ :=
  if x ≤ 0 then 0
  else
    let scale : ℤ := ratFloorLog2 x - 52
    let m := x / 2 ^ scale
    let fl := ⌊m⌋
    let fr := m - (fl : ℚ)
    let n : ℤ :=
      if fr < 1 / 2 then fl
      else if 1 / 2 < fr then fl + 1
      else if fl % 2 = 0 then fl else fl + 1
    (n : ℚ) * 2 ^ scale

def roundB64 (x : ℚ) : ℚ :=
  if x < 0 then -(roundB64Pos (-x)) else roundB64Pos x

/- `to_number_and_is_percent` under the program's actual floating-point
   semantics: `float(s)` rounds the exact decimal value of the stripped
   string to binary64, and the percent case divides by `100.0` with a
   rounded result, exactly as CPython evaluates `val / 100.0`. -/

def to_number_double (x : Option String) : Option ℚ × Bool :=
  match x with
  | none => (none, false)
  | some x0 =>
    let s := strTrim x0
    if numReMatch s then
      let is_pct := decide (s.data.getLast? = some '%')
      match parseFloat (stripPctComma s) with
      | some val =>
        let valD := roundB64 val
        (some (if is_pct then roundB64 (valD / 100) else valD), is_pct)
      | none => (none, false)
    else (none, false)

/- A pandas data frame after `clean_table`'s `applymap`: column labels plus a
   row-major grid of string cells.  `DF.colByName` is `df[c]`: the column at
   the first index whose label equals `c` (with a unique-label table this is
   the unambiguous column access the code relies on). -/

structure DF where
  cols : List String
  rows : List (List String)
deriving DecidableEq

def DF.colByName (df : DF) (c : String) : List String :=
  match df.cols.findIdx? (· == c) with
  | some j => df.rows.map (fun r => r.getD j "")
  | none => []

def getCellBy (cols : List String) (r : List String) (c : String) : String :=
  match cols.findIdx? (· == c) with
  | some j => r.getD j ""
  | none => ""

/- A raw extracted table: rows of possibly-missing cells, as handed to
   `pd.DataFrame(t)` (rectangular; default integer column labels). -/

def RawTable := List (List (Option String))

def rawToDF (t : List (List (Option String))) : DF :=
  ⟨(List.range (t.headD []).length).map natStr,
   t.map (fun r => r.map (fun cell => cell.getD ""))⟩

/- `clean_table` from `src/main.py`: trim every cell (missing cells became
   `""` in `rawToDF`), promote the first row to the header when at least half
   of its cells are non-empty, replace blank column names by `col_{i}`, and
   drop rows that are entirely empty.  (On a zero-row frame the Python code
   would raise `IndexError` at `df.iloc[0]`; a `RawTable` is non-empty by
   construction, and the `[]` branch below is the arbitrary total-function
   completion.) -/

def fixColsAux (i : Nat) : List String → List String
  | [] => []
  | c :: t => (if strTrim c = "" then "col_" ++ natStr i else c) :: fixColsAux (i + 1) t

def fixCols (cols : List String) : List String := fixColsAux 0 cols

def rowAllEmpty (r : List String) : Bool := r.all (fun c => c == "")

def clean_aux (cols : List String) : List (List String) → DF
  | [] => ⟨fixCols cols, []⟩
  | h :: t =>
    if 0 < h.length ∧ h.length ≤ 2 * h.countP (fun c => c ≠ "") then
      ⟨fixCols h, t.filter (fun r => ¬ rowAllEmpty r)⟩
    else
      ⟨fixCols cols, (h :: t).filter (fun r => ¬ rowAllEmpty r)⟩

def clean_table (df : DF) : DF :=
  clean_aux df.cols (df.rows.map (fun r => r.map strTrim))

/- A frame after `coerce_numeric_cols_with_percent_map`: same labels, numeric
   (or missing) cells. -/

structure NumDF where
  cols : List String
  rows : List (List (Option ℚ))
deriving DecidableEq

def NumDF.colByName (df : NumDF) (c : String) : List (Option ℚ) :=
  match df.cols.findIdx? (· == c) with
  | some j => df.rows.map (fun r => r.getD j none)
  | none => []

/- `coerce_numeric_cols_with_percent_map`: every non-excluded column goes
   through `to_number_and_is_percent` (value part); excluded columns (the
   year axis) go through `pd.to_numeric(..., errors="coerce")`.  The percent
   set records the non-excluded columns in which some cell carried `%`. -/

def coerceCell (exclude : List String) (c : String) (cell : String) : Option ℚ :=
  if c ∈ exclude then parseFloat cell else (to_number_and_is_percent (some cell)).1

def coerce_numeric_cols (df : DF) (exclude : List String) : NumDF :=
  ⟨df.cols,
   df.rows.map (fun r => df.cols.enum.map (fun ic => coerceCell exclude ic.2 (r.getD ic.1 "")))⟩

def percent_cols (df : DF) (exclude : List String) : List String :=
  (df.cols.enum.filter (fun ic =>
    decide (ic.2 ∉ exclude) &&
    df.rows.any (fun r => (to_number_and_is_percent (some (r.getD ic.1 ""))).2))).map (·.2)

/- Long (tidy) result: the data records plus the `attrs` metadata the code
   attaches (`year_col`, `percent_metrics`, `structure`). -/

structure LongRec where
  year : ℚ
  metric : String
  value : ℚ
deriving DecidableEq

structure LongTable where
  yearColName : String
  records : List LongRec
  percentMetrics : List String
  structureTag : String
deriving DecidableEq

/- `sort_values([year_col, "metric"])`: insertion sort by the (time, metric)
   key; any correct sort by this key models the pandas sort, whose order on
   tied keys is unspecified. -/

def recLe (a b : LongRec) : Bool :=
  decide (a.year < b.year) || (decide (a.year = b.year) && decide (a.metric ≤ b.metric))

def insertSorted (a : LongRec) : List LongRec → List LongRec
  | [] => [a]
  | b :: t => if recLe a b then a :: b :: t else b :: insertSorted a t

def sortRecs : List LongRec → List LongRec
  | [] => []
  | a :: t => insertSorted a (sortRecs t)

def listFlat {α β : Type} (f : α → List β) : List α → List β
  | [] => []
  | a :: t => f a ++ listFlat f t

/- Vertical orientation detection: keyword match on the column name first
   (`re.search` of `연도|년도|year|Year|시점|기간`), then the value-based
   fallback (`≥ max(3, len(df)//3)` parsed values, more than 60 % of them in
   `[1900, 2100]`). -/

def name_hit (c : String) : Bool :=
  ["연도", "년도", "year", "Year", "시점", "기간"].any
    (fun p => containsChars p.data c.data)

def year_value_pred (df : DF) (c : String) : Bool :=
  let parsed := (df.colByName c).filterMap parseFloat
  decide (max 3 (df.rows.length / 3) ≤ parsed.length) &&
  decide ((0.6 : ℚ) < (parsed.countP (fun v => decide (1900 ≤ v ∧ v ≤ 2100)) : ℚ) / (parsed.length : ℚ))

def find_year_col (df : DF) : Option String :=
  match df.cols.find? name_hit with
  | some c => some c
  | none => df.cols.find? (year_value_pred df)

/- The `keep` filter of `to_long_vertical`: value columns with at least two
   non-missing normalized values and non-zero spread. -/

def valid_values (df2 : NumDF) (c : String) : List ℚ :=
  (df2.colByName c).filterMap id

def qListMax : List ℚ → ℚ
  | [] => 0
  | a :: t => t.foldl max a

def qListMin : List ℚ → ℚ
  | [] => 0
  | a :: t => t.foldl min a

def keep_pred (df2 : NumDF) (c : String) : Bool :=
  let v := valid_values df2 c
  decide (2 ≤ v.length) && decide (qListMax v ≠ qListMin v)

def vertical_keep (df : DF) (yc : String) : List String :=
  (df.cols.filter (fun c => c ≠ yc)).filter (keep_pred (coerce_numeric_cols df [yc]))

/- `melt` + `dropna(subset=["value", year_col])` of the vertical path:
   one record per (row, kept column) pair with both coordinates present. -/

def melt_vertical (df2 : NumDF) (yc : String) (keep : List String) : List LongRec :=
  listFlat (fun c =>
    ((df2.colByName yc).zip (df2.colByName c)).filterMap (fun yv =>
      match yv.1, yv.2 with
      | some y, some v => some ⟨y, c, v⟩
      | _, _ => none)) keep

/- `to_long_vertical` from `src/main.py`. -/

def to_long_vertical (df : DF) : Option LongTable :=
  match find_year_col df with
  | none => none
  | some yc =>
    let valueCols := df.cols.filter (fun c => c ≠ yc)
    if valueCols.isEmpty then none
    else
      let keep := vertical_keep df yc
      if keep.isEmpty then none
      else
        let sorted := sortRecs (melt_vertical (coerce_numeric_cols df [yc]) yc keep)
        if sorted.isEmpty then none
        else if ((sorted.map (fun r => r.year)).dedup).length < 2 then none
        else
          some ⟨yc, sorted,
            keep.filter (fun c => decide (c ∈ percent_cols df [yc])), "vertical"⟩

/- Horizontal path helpers: year-like headers, the label column (first
   non-year column, or a synthesized `metric` column of `row_{i}` labels),
   raw-text percent detection, the melt, and the per-metric filter. -/

def horizontal_year_cols (df : DF) : List String :=
  df.cols.filter is_year_like

def horizontal_mcol (df : DF) : String :=
  match df.cols.filter (fun c => ¬ is_year_like c) with
  | [] => "metric"
  | m :: _ => m

def horizontal_df2 (df : DF) : DF :=
  match df.cols.filter (fun c => ¬ is_year_like c) with
  | [] => ⟨"metric" :: df.cols, df.rows.enum.map (fun ir => ("row_" ++ natStr ir.1) :: ir.2)⟩
  | _ :: _ => df

def row_has_pct (cols : List String) (yearCols : List String) (r : List String) : Bool :=
  yearCols.any (fun yc => (getCellBy cols r yc).data.contains '%')

def horizontal_pct_raw (df : DF) : List String :=
  (((horizontal_df2 df).rows.filter
      (row_has_pct (horizontal_df2 df).cols (horizontal_year_cols df))).map
    (fun r => strTrim (getCellBy (horizontal_df2 df).cols r (horizontal_mcol df)))).dedup

def horizontal_melt_col (df : DF) (yc : String) : List LongRec :=
  (horizontal_df2 df).rows.filterMap (fun r =>
    match parseFloat yc,
          (to_number_and_is_percent (some (getCellBy (horizontal_df2 df).cols r yc))).1 with
    | some y, some v =>
      some ⟨y, strTrim (getCellBy (horizontal_df2 df).cols r (horizontal_mcol df)), v⟩
    | _, _ => none)

def horizontal_melted (df : DF) : List LongRec :=
  listFlat (horizontal_melt_col df) (horizontal_year_cols df)

def horizontal_ok_metrics (df : DF) : List String :=
  ((horizontal_melted df).map (fun r => r.metric)).dedup.filter (fun m =>
    let vals := ((horizontal_melted df).filter (fun r => r.metric == m)).map (fun r => r.value)
    decide (2 ≤ vals.length) && decide (qListMax vals ≠ qListMin vals))

/- `to_long_horizontal` from `src/main.py`. -/

def to_long_horizontal (df : DF) : Option LongTable :=
  if (horizontal_year_cols df).length < 2 then none
  else
    let final := (horizontal_melted df).filter
      (fun r => decide (r.metric ∈ horizontal_ok_metrics df))
    if final.isEmpty then none
    else if ((final.map (fun r => r.year)).dedup).length < 2 then none
    else
      some ⟨"year", final,
        (horizontal_pct_raw df).filter (fun m => decide (m ∈ horizontal_ok_metrics df)),
        "horizontal"⟩

/- `pick_first_visualizable_long` from `src/main.py`.  Candidates come tagged
   with an integer (the caller's page number / index); the fallback returns
   the first candidate's cleaned table with an empty long frame whose columns
   are `year`, `metric`, `value`, and the empty-input case returns the `-1`
   sentinel with two empty frames. -/

def table_long (t : List (List (Option String))) : Option LongTable :=
  let dfc := clean_table (rawToDF t)
  match to_long_vertical dfc with
  | some l => some l
  | none => to_long_horizontal dfc

def empty_long : LongTable := ⟨"year", [], [], ""⟩

def pick_aux : List (Int × List (List (Option String))) → Option (Int × DF × LongTable)
  | [] => none
  | (p, raw) :: rest =>
    let dfc := clean_table (rawToDF raw)
    match to_long_vertical dfc with
    | some l => some (p, dfc, l)
    | none =>
      match to_long_horizontal dfc with
      | some l => some (p, dfc, l)
      | none => pick_aux rest

def pick_first_visualizable_long
    (tables : List (Int × List (List (Option String)))) : Int × DF × LongTable :=
  match pick_aux tables with
  | some r => r
  | none =>
    match tables with
    | (p, raw) :: _ => (p, clean_table (rawToDF raw), empty_long)
    | [] => (-1, ⟨[], []⟩, empty_long)


/- Concrete tables used to instantiate the claims. -/

def c2_df : DF :=
  ⟨["year", "m1", "m2"],
   [["2019", "1.0", "5"], ["2020", "2.0", "5"], ["2021", "3.0", "5"], ["2022", "3.0", "5"]]⟩

def c2_lt : LongTable :=
  ⟨"year",
   [⟨2019, "m1", 1⟩, ⟨2020, "m1", 2⟩, ⟨2021, "m1", 3⟩, ⟨2022, "m1", 3⟩],
   [], "vertical"⟩

def c3_df : DF :=
  ⟨["지표", "2020", "2021", "2022"],
   [["혼인율", "10%", "9%", "8%"], ["이혼율", "3", "3", "3"]]⟩

def c3_lt : LongTable :=
  ⟨"year",
   [⟨2020, "혼인율", 1/10⟩, ⟨2021, "혼인율", 9/100⟩, ⟨2022, "혼인율", 2/25⟩],
   ["혼인율"], "horizontal"⟩

def c5_df : DF :=
  ⟨["a", "b"], [["x", "2019"], ["y", "2020"], ["z", "2021"]]⟩

def c6_df : DF :=
  ⟨["year", "a"], [["2019", "1"], ["2020", "2"], ["2021", "3"]]⟩

def c6_lt : LongTable :=
  ⟨"year", [⟨2019, "a", 1⟩, ⟨2020, "a", 2⟩, ⟨2021, "a", 3⟩], [], "vertical"⟩

def c7_bad : List (List (Option String)) :=
  [[some "a", some "a"], [some "1", some "2"]]

def c7w_raw : List (List (Option String)) :=
  [[some " ", some "b"]]

def c8_t : List (List (Option String)) :=
  [[some "h1", some "h2"], [some "2019", some "1"], [some "2020", some "2"]]

def c8_w : List (List (Option String)) :=
  [[some "h1", some "h2", some "h3", some ""], [some "x", some "", some "", some ""]]

def c4_t1 : List (List (Option String)) := [[some "x"]]

def c4_t2 : List (List (Option String)) :=
  [[some "year", some "a"], [some "2019", some "1"], [some "2020", some "2"],
   [some "2021", some "3"]]

/- ------------------------------------------------------------------ -/
/- Character-class facts.                                             -/
/- ------------------------------------------------------------------ -/

theorem isWS_cases {c : Char} (h : isWS c = true) :
    c = ' ' ∨ c = '\t' ∨ c = '\n' ∨ c = '\r' ∨ c = '\x0b' ∨ c = '\x0c' := by
  simp [isWS] at h; tauto

theorem not_isWS_of_dc {c : Char} (h : isDigitOrComma c = true) : isWS c = false := by
  cases hw : isWS c
  · rfl
  · rcases isWS_cases hw with h' | h' | h' | h' | h' | h' <;> subst h' <;>
      exact absurd h (by decide)

theorem not_isWS_of_digit {c : Char} (h : c.isDigit = true) : isWS c = false :=
  not_isWS_of_dc (by simp [isDigitOrComma, h])

theorem isWS_ne_dot {c : Char} (h : isWS c = true) : c ≠ '.' := by
  rcases isWS_cases h with h' | h' | h' | h' | h' | h' <;> subst h' <;> decide

theorem isWS_ne_pct {c : Char} (h : isWS c = true) : c ≠ '%' := by
  rcases isWS_cases h with h' | h' | h' | h' | h' | h' <;> subst h' <;> decide

theorem isWS_ne_minus {c : Char} (h : isWS c = true) : c ≠ '-' := by
  rcases isWS_cases h with h' | h' | h' | h' | h' | h' <;> subst h' <;> decide

theorem dc_ne_minus {c : Char} (h : isDigitOrComma c = true) : c ≠ '-' := by
  rintro rfl; exact absurd h (by decide)

theorem dc_ne_dot {c : Char} (h : isDigitOrComma c = true) : c ≠ '.' := by
  rintro rfl; exact absurd h (by decide)

theorem digit_ne_dot {c : Char} (h : c.isDigit = true) : c ≠ '.' := by
  rintro rfl; exact absurd h (by decide)

theorem not_dc_of_isWS {c : Char} (h : isWS c = true) : isDigitOrComma c = false := by
  cases hd : isDigitOrComma c
  · rfl
  · rw [not_isWS_of_dc hd] at h; exact absurd h (by simp)

theorem not_digit_of_isWS {c : Char} (h : isWS c = true) : c.isDigit = false := by
  cases hd : c.isDigit
  · rfl
  · rw [not_isWS_of_digit hd] at h; exact absurd h (by simp)

/- ------------------------------------------------------------------ -/
/- takeWhile / dropWhile plumbing.                                    -/
/- ------------------------------------------------------------------ -/

theorem dropWhile_append_all {α : Type} {p : α → Bool} {a : List α} (b : List α)
    (h : ∀ x ∈ a, p x = true) : (a ++ b).dropWhile p = b.dropWhile p := by
  induction a with
  | nil => rfl
  | cons x t ih =>
    simp only [List.cons_append, List.dropWhile_cons, h x (by simp)]
    exact ih (fun y hy => h y (by simp [hy]))

theorem takeWhile_append_all {α : Type} {p : α → Bool} {a : List α} (b : List α)
    (h : ∀ x ∈ a, p x = true) : (a ++ b).takeWhile p = a ++ b.takeWhile p := by
  induction a with
  | nil => rfl
  | cons x t ih =>
    simp only [List.cons_append, List.takeWhile_cons, h x (by simp), if_true]
    exact congrArg (x :: ·) (ih (fun y hy => h y (by simp [hy])))

theorem dropWhile_cons_head {α : Type} {p : α → Bool} {c : α} {t : List α}
    (h : p c = false) : (c :: t).dropWhile p = c :: t := by
  simp [List.dropWhile_cons, h]

theorem takeWhile_cons_head {α : Type} {p : α → Bool} {c : α} {t : List α}
    (h : p c = false) : (c :: t).takeWhile p = [] := by
  simp [List.takeWhile_cons, h]

theorem dropWhile_head_false {α : Type} {p : α → Bool} (l : List α) :
    ∀ {c : α} {t : List α}, l.dropWhile p = c :: t → p c = false := by
  induction l with
  | nil => intro c t h; simp at h
  | cons x xs ih =>
    intro c t h
    by_cases hx : p x = true
    · rw [List.dropWhile_cons, if_pos hx] at h; exact ih h
    · rw [List.dropWhile_cons, if_neg hx] at h
      cases h; simpa using hx

theorem dropWhile_idem {α : Type} {p : α → Bool} (l : List α) :
    (l.dropWhile p).dropWhile p = l.dropWhile p := by
  cases h : l.dropWhile p with
  | nil => rfl
  | cons c t => exact dropWhile_cons_head (dropWhile_head_false l h)

/- ------------------------------------------------------------------ -/
/- `strTrim` facts: idempotence and emptiness.                        -/
/- ------------------------------------------------------------------ -/

theorem trimR_head {l : List Char} {c : Char} {t : List Char}
    (h : trimR l = c :: t) : (c :: t) <+: l := by
  have hsuff : (l.reverse.dropWhile isWS) <:+ l.reverse := List.dropWhile_suffix _
  have hpre : (l.reverse.dropWhile isWS).reverse <+: l := by
    have := List.reverse_prefix.mpr hsuff
    simpa using this
  rw [trimR] at h
  rw [h] at hpre
  exact hpre

theorem trimR_getLast_not_ws {l : List Char} {c : Char} {t : List Char}
    (h : trimR l = c :: t) : ∀ d, (c :: t).getLast? = some d → isWS d = false := by
  intro d hd
  rw [trimR] at h
  have hrev : l.reverse.dropWhile isWS = (c :: t).reverse := by
    have := congrArg List.reverse h
    simpa using this
  rcases ht : (c :: t).reverse with _ | ⟨x, xs⟩
  · simp at ht
  · rw [ht] at hrev
    have hx : isWS x = false := dropWhile_head_false _ hrev
    have hgl : (c :: t).getLast? = some x := by
      rw [← List.head?_reverse, ht]; rfl
    rw [hgl] at hd
    cases hd
    exact hx

theorem trimR_nil_iff (l : List Char) : trimR l = [] ↔ ∀ c ∈ l, isWS c = true := by
  rw [trimR]
  constructor
  · intro h c hc
    have hnil : l.reverse.dropWhile isWS = [] := by
      have := congrArg List.reverse h
      simpa using this
    exact (List.dropWhile_eq_nil_iff).mp hnil c (by simpa using hc)
  · intro h
    have hnil : l.reverse.dropWhile isWS = [] :=
      (List.dropWhile_eq_nil_iff).mpr (fun c hc => h c (by simpa using hc))
    simp [hnil]

theorem strTrim_empty_iff (s : String) :
    strTrim s = "" ↔ ∀ c ∈ s.data, isWS c = true := by
  have hmk : ∀ l : List Char, (String.mk l = "") ↔ l = [] := by
    intro l
    constructor
    · intro h; have := congrArg String.data h; simpa using this
    · intro h; rw [h]
  rw [strTrim, hmk, trimR_nil_iff]
  constructor
  · intro h c hc
    have hsplit : c ∈ s.data.takeWhile isWS ∨ c ∈ s.data.dropWhile isWS := by
      have hmem : c ∈ s.data.takeWhile isWS ++ s.data.dropWhile isWS := by
        rw [List.takeWhile_append_dropWhile]; exact hc
      exact List.mem_append.mp hmem
    rcases hsplit with h1 | h1
    · exact List.mem_takeWhile_imp h1
    · exact h c h1
  · intro h c hc
    rw [trimL] at hc
    exact h c ((List.dropWhile_sublist isWS).subset hc)

theorem strTrim_strTrim (s : String) : strTrim (strTrim s) = strTrim s := by
  rw [strTrim, strTrim]
  have hdata : (String.mk (trimR (trimL s.data))).data = trimR (trimL s.data) := rfl
  rw [hdata]
  set x := trimR (trimL s.data) with hx
  have htrimLx : trimL x = x := by
    rcases hxe : x with _ | ⟨c, t⟩
    · rfl
    · rcases trimR_head (hx ▸ hxe ▸ rfl : trimR (trimL s.data) = c :: t) with ⟨r, hr⟩
      have hc : isWS c = false := by
        have hfix : (trimL s.data).dropWhile isWS = trimL s.data := by
          rw [trimL]; exact dropWhile_idem _
        rw [← hr] at hfix
        simpa using hfix
      exact dropWhile_cons_head hc
  rw [htrimLx]
  rcases hxe : x with _ | ⟨c, t⟩
  · rfl
  · have hlast : ∀ d, (c :: t).getLast? = some d → isWS d = false :=
      trimR_getLast_not_ws (hx ▸ hxe ▸ rfl : trimR (trimL s.data) = c :: t)
    rcases hle : (c :: t).getLast? with _ | d
    · simp at hle
    · have hd : isWS d = false := hlast d hle
      rw [trimR]
      have hhead : (c :: t).reverse.head? = some d := by
        rw [List.head?_reverse]; exact hle
      rcases hre : (c :: t).reverse with _ | ⟨y, ys⟩
      · simp at hre
      · rw [hre] at hhead
        cases hhead
        rw [dropWhile_cons_head hd, ← hre, List.reverse_reverse]

/- ------------------------------------------------------------------ -/
/- `natStr` and `fixCols` facts.                                      -/
/- ------------------------------------------------------------------ -/

theorem digitChar_isDigit (k : Nat) : (digitChar k).isDigit = true := by
  unfold digitChar
  repeat' split
  all_goals decide

theorem natStrAux_digits :
    ∀ n acc, (∀ c ∈ acc, c.isDigit = true) → ∀ c ∈ natStrAux n acc, c.isDigit = true := by
  intro n
  induction n using Nat.strong_induction_on with
  | _ n ih =>
    intro acc hacc c hc
    rw [natStrAux] at hc
    by_cases h10 : n < 10
    · rw [if_pos h10] at hc
      rcases List.mem_cons.mp hc with h | h
      · rw [h]; exact digitChar_isDigit n
      · exact hacc c h
    · rw [if_neg h10] at hc
      refine ih (n / 10) (Nat.div_lt_self (by omega) (by omega)) _ ?_ c hc
      intro d hd
      rcases List.mem_cons.mp hd with h | h
      · rw [h]; exact digitChar_isDigit (n % 10)
      · exact hacc d h

theorem natStrAux_ne_nil : ∀ n acc, natStrAux n acc ≠ [] := by
  intro n
  induction n using Nat.strong_induction_on with
  | _ n ih =>
    intro acc
    rw [natStrAux]
    by_cases h10 : n < 10
    · rw [if_pos h10]; exact List.cons_ne_nil _ _
    · rw [if_neg h10]; exact ih (n / 10) (Nat.div_lt_self (by omega) (by omega)) _

theorem colName_strTrim_ne (i : Nat) : strTrim ("col_" ++ natStr i) ≠ "" := by
  intro h
  have hmem : 'c' ∈ ("col_" ++ natStr i).data := by
    rw [String.data_append]
    exact List.mem_append.mpr (Or.inl (by decide))
  have := (strTrim_empty_iff _).mp h 'c' hmem
  exact absurd this (by decide)

theorem colName_ne_empty (i : Nat) : ("col_" ++ natStr i) ≠ "" := by
  intro h
  have := congrArg String.data h
  rw [String.data_append] at this
  simp at this

theorem mem_fixColsAux :
    ∀ (i : Nat) (l : List String) (c : String), c ∈ fixColsAux i l →
      c ≠ "" ∧ strTrim c ≠ "" := by
  intro i l
  induction l generalizing i with
  | nil => intro c hc; simp [fixColsAux] at hc
  | cons x t ih =>
    intro c hc
    rw [fixColsAux] at hc
    rcases List.mem_cons.mp hc with h | h
    · by_cases hx : strTrim x = ""
      · rw [if_pos hx] at h
        subst h
        exact ⟨colName_ne_empty i, colName_strTrim_ne i⟩
      · rw [if_neg hx] at h
        subst h
        refine ⟨?_, hx⟩
        intro hce
        rw [hce] at hx
        exact hx rfl
    · exact ih (i + 1) c h

theorem mem_fixCols {b : List String} {c : String} (h : c ∈ fixCols b) :
    c ≠ "" ∧ strTrim c ≠ "" :=
  mem_fixColsAux 0 b c h

theorem fixColsAux_idem : ∀ (i : Nat) (l : List String),
    fixColsAux i (fixColsAux i l) = fixColsAux i l := by
  intro i l
  induction l generalizing i with
  | nil => rfl
  | cons x t ih =>
    rw [fixColsAux]
    by_cases hx : strTrim x = ""
    · rw [if_pos hx, fixColsAux, if_neg (colName_strTrim_ne i), ih (i + 1)]
    · rw [if_neg hx, fixColsAux, if_neg hx, ih (i + 1)]

theorem fixCols_idem (b : List String) : fixCols (fixCols b) = fixCols b :=
  fixColsAux_idem 0 b

/- ------------------------------------------------------------------ -/
/- `clean_table` invariants.                                          -/
/- ------------------------------------------------------------------ -/

theorem clean_aux_cols_shape (cols : List String) (rows : List (List String)) :
    ∃ b, (clean_aux cols rows).cols = fixCols b := by
  rcases rows with _ | ⟨h, t⟩
  · exact ⟨cols, rfl⟩
  · rw [clean_aux]
    by_cases hp : 0 < h.length ∧ h.length ≤ 2 * h.countP (fun c => c ≠ "")
    · rw [if_pos hp]; exact ⟨h, rfl⟩
    · rw [if_neg hp]; exact ⟨cols, rfl⟩

theorem clean_table_cols_shape (df : DF) : ∃ b, (clean_table df).cols = fixCols b := by
  rw [clean_table]; exact clean_aux_cols_shape _ _

theorem clean_aux_rows_sub (cols : List String) (rows : List (List String)) :
    ∀ r ∈ (clean_aux cols rows).rows, r ∈ rows ∧ rowAllEmpty r = false := by
  intro r hr
  rcases rows with _ | ⟨h, t⟩
  · simp [clean_aux] at hr
  · rw [clean_aux] at hr
    by_cases hp : 0 < h.length ∧ h.length ≤ 2 * h.countP (fun c => c ≠ "")
    · rw [if_pos hp] at hr
      simp only [List.mem_filter] at hr
      exact ⟨List.mem_cons_of_mem _ hr.1, by simpa using hr.2⟩
    · rw [if_neg hp] at hr
      simp only [List.mem_filter] at hr
      exact ⟨hr.1, by simpa using hr.2⟩

theorem clean_table_rows_mem {df : DF} {r : List String}
    (h : r ∈ (clean_table df).rows) :
    (∀ c ∈ r, strTrim c = c) ∧ rowAllEmpty r = false := by
  rw [clean_table] at h
  have hsub := clean_aux_rows_sub df.cols _ r h
  refine ⟨?_, hsub.2⟩
  intro c hc
  rcases List.mem_map.mp hsub.1 with ⟨row, _, hrow⟩
  subst hrow
  rcases List.mem_map.mp hc with ⟨c₀, _, hc₀⟩
  subst hc₀
  exact strTrim_strTrim c₀

theorem clean_table_idem {df : DF} {h : List String} {t_ : List (List String)}
    (hrows : (clean_table df).rows = h :: t_)
    (hlt : 2 * h.countP (fun c => c ≠ "") < h.length) :
    clean_table (clean_table df) = clean_table df := by
  obtain ⟨b, hcols⟩ := clean_table_cols_shape df
  have hmapfix : (clean_table df).rows.map (fun r => r.map strTrim) = (clean_table df).rows := by
    have hcong : ∀ r ∈ (clean_table df).rows, r.map strTrim = r := by
      intro r hr
      have hfix := (clean_table_rows_mem hr).1
      calc r.map strTrim = r.map id := List.map_congr_left hfix
        _ = r := List.map_id r
    calc (clean_table df).rows.map (fun r => r.map strTrim)
        = (clean_table df).rows.map id := List.map_congr_left hcong
      _ = (clean_table df).rows := List.map_id _
  have hfilter : (h :: t_).filter (fun r => ¬ rowAllEmpty r) = h :: t_ := by
    apply List.filter_eq_self.mpr
    intro r hr
    have hmem : r ∈ (clean_table df).rows := by rw [hrows]; exact hr
    have := (clean_table_rows_mem hmem).2
    simp [this]
  have hcond : ¬ (0 < h.length ∧ h.length ≤ 2 * h.countP (fun c => c ≠ "")) := by
    omega
  conv_lhs => rw [clean_table]
  rw [hmapfix, hrows, clean_aux, if_neg hcond, hfilter, hcols, fixCols_idem, ← hcols, ← hrows]

/- ------------------------------------------------------------------ -/
/- Claim C7.                                                          -/
/- ------------------------------------------------------------------ -/

/-- C7 counterexample: on the raw table `[["a","a"],["1","2"]]` the first
row is promoted to the header and the duplicate non-empty name `"a"` is kept
twice, so the cleaned column names are not pairwise unique as the claim
states. -/
theorem c7_counterexample : ¬ (clean_table (rawToDF c7_bad)).cols.Nodup := by decide

/-- C7 (amended): for every non-empty raw table, `clean` yields a table in
which every column name is non-empty (indeed not even whitespace-only, since
empty and whitespace-only names are replaced by `col_{i}` placeholders) and
no surviving row consists entirely of empty strings; pairwise uniqueness of
the names is not guaranteed. -/
theorem c7_clean_invariants (raw : List (List (Option String))) (_hne : raw ≠ []) :
    (∀ c ∈ (clean_table (rawToDF raw)).cols, c ≠ "" ∧ strTrim c ≠ "") ∧
    (∀ r ∈ (clean_table (rawToDF raw)).rows, ∃ cell ∈ r, cell ≠ "") := by
  constructor
  · intro c hc
    obtain ⟨b, hb⟩ := clean_table_cols_shape (rawToDF raw)
    rw [hb] at hc
    exact mem_fixCols hc
  · intro r hr
    have h2 := (clean_table_rows_mem hr).2
    by_contra hno
    push_neg at hno
    have hall : rowAllEmpty r = true := by
      rw [rowAllEmpty, List.all_eq_true]
      intro c hc
      simpa using hno c hc
    rw [hall] at h2
    exact absurd h2 (by simp)

/-- C7 witness: the amended invariants instantiated on the concrete raw
table `[[" ", "b"]]`, whose whitespace-only header cell becomes `col_0`. -/
theorem c7_witness :
    (∀ c ∈ (clean_table (rawToDF c7w_raw)).cols, c ≠ "" ∧ strTrim c ≠ "") ∧
    (∀ r ∈ (clean_table (rawToDF c7w_raw)).rows, ∃ cell ∈ r, cell ≠ "") :=
  c7_clean_invariants c7w_raw (by decide)

/- ------------------------------------------------------------------ -/
/- Claim C8.                                                          -/
/- ------------------------------------------------------------------ -/

/-- C8 counterexample: `clean` is not idempotent after a header promotion.
On `[["h1","h2"],["2019","1"],["2020","2"]]` the first clean promotes the
header, and re-applying `clean` promotes the (fully non-empty, mostly
numeric) first data row again, changing the table. -/
theorem c8_counterexample :
    clean_table (clean_table (rawToDF c8_t)) ≠ clean_table (rawToDF c8_t) := by decide

/-- C8 (amended): `clean` is idempotent exactly on the tables where no
second header promotion fires — whenever the cleaned table has a first row
with strictly fewer than half of its cells non-empty, re-applying `clean`
is the identity.  (On an already-clean table whose first data row is mostly
numeric — hence mostly non-empty — a second promotion does fire, see the
counterexample.) -/
theorem c8_clean_idempotent (df : DF) (h : List String) (t_ : List (List String))
    (hrows : (clean_table df).rows = h :: t_)
    (hlt : 2 * h.countP (fun c => c ≠ "") < h.length) :
    clean_table (clean_table df) = clean_table df :=
  clean_table_idem hrows hlt

/-- C8 witness: the amended idempotence applied to a concrete table whose
cleaned first row has 1 of 4 cells non-empty. -/
theorem c8_witness :
    clean_table (clean_table (rawToDF c8_w)) = clean_table (rawToDF c8_w) :=
  c8_clean_idempotent (rawToDF c8_w) ["x", "", "", ""] [] (by decide) (by decide)

/- ------------------------------------------------------------------ -/
/- Claim C10.                                                         -/
/- ------------------------------------------------------------------ -/

/-- C10: called on an empty candidate sequence, the table selector does not
raise: it returns the sentinel `-1`, an empty clean table, and the empty
long table (the frame with columns `year`, `metric`, `value` and no
records). -/
theorem c10_empty_selector :
    pick_first_visualizable_long [] = ((-1 : Int), (⟨[], []⟩ : DF), empty_long) := rfl

/- ------------------------------------------------------------------ -/
/- Inversion of the long-form transformers.                           -/
/- ------------------------------------------------------------------ -/

theorem to_long_vertical_inv {df : DF} {lt : LongTable}
    (h : to_long_vertical df = some lt) :
    (∃ yc, find_year_col df = some yc ∧
      lt.records = sortRecs (melt_vertical (coerce_numeric_cols df [yc]) yc (vertical_keep df yc))) ∧
    2 ≤ ((lt.records.map (fun r => r.year)).dedup).length := by
  simp only [to_long_vertical] at h
  split at h
  · exact absurd h (by simp)
  · rename_i yc hyc
    split at h
    · exact absurd h (by simp)
    · split at h
      · exact absurd h (by simp)
      · split at h
        · exact absurd h (by simp)
        · split at h
          · exact absurd h (by simp)
          · rename_i h1 h2 h3 hdedup
            cases h
            refine ⟨⟨yc, hyc, rfl⟩, ?_⟩
            dsimp only
            omega

theorem to_long_horizontal_inv {df : DF} {lt : LongTable}
    (h : to_long_horizontal df = some lt) :
    lt.records = (horizontal_melted df).filter
        (fun r => decide (r.metric ∈ horizontal_ok_metrics df)) ∧
    lt.percentMetrics = (horizontal_pct_raw df).filter
        (fun m => decide (m ∈ horizontal_ok_metrics df)) ∧
    2 ≤ ((lt.records.map (fun r => r.year)).dedup).length := by
  simp only [to_long_horizontal] at h
  split at h
  · exact absurd h (by simp)
  · split at h
    · exact absurd h (by simp)
    · split at h
      · exact absurd h (by simp)
      · rename_i h1 h2 hdedup
        cases h
        refine ⟨rfl, rfl, ?_⟩
        dsimp only
        omega

/- ------------------------------------------------------------------ -/
/- Claim C6.                                                          -/
/- ------------------------------------------------------------------ -/

/-- C6: in either orientation, a successful long-form transformation always
contains at least 2 distinct time values among its surviving records;
equivalently, if fewer than 2 distinct time values survive the filtering,
`to_long` returns the no-result signal, so a table with a single distinct
time value is always rejected. -/
theorem c6_two_distinct_times (df : DF) (lt : LongTable)
    (h : to_long_vertical df = some lt ∨ to_long_horizontal df = some lt) :
    2 ≤ ((lt.records.map (fun r => r.year)).dedup).length := by
  rcases h with h | h
  · exact (to_long_vertical_inv h).2
  · exact (to_long_horizontal_inv h).2.2

/-- C6 witness: the bound instantiated on a concrete vertical table with
three distinct years. -/
theorem c6_witness :
    2 ≤ ((c6_lt.records.map (fun r => r.year)).dedup).length :=
  c6_two_distinct_times c6_df c6_lt (Or.inl (by decide))

/- ------------------------------------------------------------------ -/
/- Fold-based max/min of a value list.                                -/
/- ------------------------------------------------------------------ -/

theorem le_foldl_max : ∀ (t : List ℚ) (a : ℚ), a ≤ t.foldl max a := by
  intro t
  induction t with
  | nil => intro a; exact le_refl a
  | cons b t ih =>
    intro a
    calc a ≤ max a b := le_max_left a b
      _ ≤ (b :: t).foldl max a := by rw [List.foldl_cons]; exact ih (max a b)

theorem mem_le_foldl_max : ∀ (t : List ℚ) (a x : ℚ), x ∈ t → x ≤ t.foldl max a := by
  intro t
  induction t with
  | nil => intro a x hx; simp at hx
  | cons b t ih =>
    intro a x hx
    rw [List.foldl_cons]
    rcases List.mem_cons.mp hx with h | h
    · subst h
      calc x ≤ max a x := le_max_right a x
        _ ≤ t.foldl max (max a x) := le_foldl_max t (max a x)
    · exact ih (max a b) x h

theorem foldl_max_cases : ∀ (t : List ℚ) (a : ℚ), t.foldl max a = a ∨ t.foldl max a ∈ t := by
  intro t
  induction t with
  | nil => intro a; exact Or.inl rfl
  | cons b t ih =>
    intro a
    rw [List.foldl_cons]
    rcases ih (max a b) with h | h
    · rcases max_choice a b with hm | hm
      · exact Or.inl (h.trans hm)
      · exact Or.inr (by rw [h.trans hm]; exact List.mem_cons_self b t)
    · exact Or.inr (List.mem_cons_of_mem b h)

theorem foldl_min_le : ∀ (t : List ℚ) (a : ℚ), t.foldl min a ≤ a := by
  intro t
  induction t with
  | nil => intro a; exact le_refl a
  | cons b t ih =>
    intro a
    calc (b :: t).foldl min a = t.foldl min (min a b) := by rw [List.foldl_cons]
      _ ≤ min a b := ih (min a b)
      _ ≤ a := min_le_left a b

theorem foldl_min_le_mem : ∀ (t : List ℚ) (a x : ℚ), x ∈ t → t.foldl min a ≤ x := by
  intro t
  induction t with
  | nil => intro a x hx; simp at hx
  | cons b t ih =>
    intro a x hx
    rw [List.foldl_cons]
    rcases List.mem_cons.mp hx with h | h
    · subst h
      calc t.foldl min (min a x) ≤ min a x := foldl_min_le t (min a x)
        _ ≤ x := min_le_right a x
    · exact ih (min a b) x h

theorem qListMax_mem_le {v : List ℚ} {x : ℚ} (hx : x ∈ v) : x ≤ qListMax v := by
  rcases v with _ | ⟨a, t⟩
  · simp at hx
  · rw [qListMax]
    rcases List.mem_cons.mp hx with h | h
    · subst h; exact le_foldl_max t x
    · exact mem_le_foldl_max t a x h

theorem qListMin_le_mem {v : List ℚ} {x : ℚ} (hx : x ∈ v) : qListMin v ≤ x := by
  rcases v with _ | ⟨a, t⟩
  · simp at hx
  · rw [qListMin]
    rcases List.mem_cons.mp hx with h | h
    · subst h; exact foldl_min_le t x
    · exact foldl_min_le_mem t a x h

theorem qListMax_mem {v : List ℚ} (hv : v ≠ []) : qListMax v ∈ v := by
  rcases v with _ | ⟨a, t⟩
  · exact absurd rfl hv
  · rw [qListMax]
    rcases foldl_max_cases t a with h | h
    · rw [h]; exact List.mem_cons_self a t
    · exact List.mem_cons_of_mem a h

theorem qListMin_mem {v : List ℚ} (hv : v ≠ []) : qListMin v ∈ v := by
  rcases v with _ | ⟨a, t⟩
  · exact absurd rfl hv
  · rw [qListMin]
    have : ∀ (t : List ℚ) (a : ℚ), t.foldl min a = a ∨ t.foldl min a ∈ t := by
      intro t
      induction t with
      | nil => intro a; exact Or.inl rfl
      | cons b t ih =>
        intro a
        rw [List.foldl_cons]
        rcases ih (min a b) with h | h
        · rcases min_choice a b with hm | hm
          · exact Or.inl (h.trans hm)
          · exact Or.inr (by rw [h.trans hm]; exact List.mem_cons_self b t)
        · exact Or.inr (List.mem_cons_of_mem b h)
    rcases this t a with h | h
    · rw [h]; exact List.mem_cons_self a t
    · exact List.mem_cons_of_mem a h

/- Non-zero spread is the same as having two distinct values. -/

theorem spread_iff_two_distinct {v : List ℚ} (hv : v ≠ []) :
    qListMax v ≠ qListMin v ↔ ∃ a ∈ v, ∃ b ∈ v, a ≠ b := by
  constructor
  · intro h
    exact ⟨qListMax v, qListMax_mem hv, qListMin v, qListMin_mem hv, h⟩
  · rintro ⟨a, ha, b, hb, hab⟩ heq
    have h1 : a ≤ qListMax v := qListMax_mem_le ha
    have h2 : qListMin v ≤ a := qListMin_le_mem ha
    have h3 : b ≤ qListMax v := qListMax_mem_le hb
    have h4 : qListMin v ≤ b := qListMin_le_mem hb
    rw [heq] at h1 h3
    exact hab (le_antisymm h1 h2 |>.trans (le_antisymm h3 h4).symm)

/- ------------------------------------------------------------------ -/
/- Sortedness of the (time, metric) insertion sort.                   -/
/- ------------------------------------------------------------------ -/

theorem recLe_total (a b : LongRec) : recLe a b = true ∨ recLe b a = true := by
  simp only [recLe, Bool.or_eq_true, Bool.and_eq_true, decide_eq_true_eq]
  rcases lt_trichotomy a.year b.year with h | h | h
  · exact Or.inl (Or.inl h)
  · rcases le_total a.metric b.metric with hm | hm
    · exact Or.inl (Or.inr ⟨h, hm⟩)
    · exact Or.inr (Or.inr ⟨h.symm, hm⟩)
  · exact Or.inr (Or.inl h)

theorem recLe_trans {a b c : LongRec} (h1 : recLe a b = true) (h2 : recLe b c = true) :
    recLe a c = true := by
  simp only [recLe, Bool.or_eq_true, Bool.and_eq_true, decide_eq_true_eq] at h1 h2 ⊢
  rcases h1 with h1 | ⟨h1e, h1m⟩ <;> rcases h2 with h2 | ⟨h2e, h2m⟩
  · exact Or.inl (h1.trans h2)
  · exact Or.inl (by rw [← h2e]; exact h1)
  · exact Or.inl (by rw [h1e]; exact h2)
  · exact Or.inr ⟨h1e.trans h2e, le_trans h1m h2m⟩

theorem mem_insertSorted {a x : LongRec} :
    ∀ {l : List LongRec}, x ∈ insertSorted a l ↔ x = a ∨ x ∈ l := by
  intro l
  induction l with
  | nil => simp [insertSorted]
  | cons b t ih =>
    rw [insertSorted]
    split
    · simp only [List.mem_cons]
    · simp only [List.mem_cons, ih]; tauto

theorem insertSorted_sorted {a : LongRec} :
    ∀ {l : List LongRec}, l.Pairwise (fun x y => recLe x y = true) →
      (insertSorted a l).Pairwise (fun x y => recLe x y = true) := by
  intro l
  induction l with
  | nil => intro _; simp [insertSorted]
  | cons b t ih =>
    intro hp
    rw [insertSorted]
    split
    · rename_i hab
      refine List.Pairwise.cons ?_ hp
      intro y hy
      rcases List.mem_cons.mp hy with rfl | hyt
      · exact hab
      · exact recLe_trans hab (List.rel_of_pairwise_cons hp hyt)
    · rename_i hab
      have hba : recLe b a = true := (recLe_total a b).resolve_left hab
      rcases List.pairwise_cons.mp hp with ⟨hbt, htp⟩
      refine List.Pairwise.cons ?_ (ih htp)
      intro y hy
      rcases mem_insertSorted.mp hy with rfl | hyt
      · exact hba
      · exact hbt y hyt

theorem sortRecs_sorted : ∀ l : List LongRec,
    (sortRecs l).Pairwise (fun x y => recLe x y = true) := by
  intro l
  induction l with
  | nil => simp [sortRecs]
  | cons a t ih => rw [sortRecs]; exact insertSorted_sorted ih

/- ------------------------------------------------------------------ -/
/- Claim C2.                                                          -/
/- ------------------------------------------------------------------ -/

/-- C2: on a cleaned table where the vertical path applies with time-axis
column `yc`, the kept metric columns are exactly the non-time columns with
at least 2 non-missing normalized values whose valid values are not all
equal (max ≠ min, i.e. two distinct values exist); every successful vertical
result is sorted by the (time, metric) key; and on the concrete vertical
table with years 2019–2022, metric values [1.0,2.0,3.0,3.0] and constant
column [5,5,5,5], the result is exactly 4 records, all for the first metric,
sorted by time ascending. -/
theorem c2_vertical_keep_and_sorted :
    (∀ (df : DF) (yc : String), df.cols.Nodup → find_year_col df = some yc →
      ∀ c, c ∈ vertical_keep df yc ↔
        c ∈ df.cols ∧ c ≠ yc ∧
        2 ≤ (valid_values (coerce_numeric_cols df [yc]) c).length ∧
        ∃ a ∈ valid_values (coerce_numeric_cols df [yc]) c,
          ∃ b ∈ valid_values (coerce_numeric_cols df [yc]) c, a ≠ b) ∧
    (∀ (df : DF) (lt : LongTable), to_long_vertical df = some lt →
      lt.records.Pairwise (fun x y => recLe x y = true)) ∧
    to_long_vertical c2_df = some c2_lt := by
  refine ⟨?_, ?_, ?_⟩
  · intro df yc _ _ c
    unfold vertical_keep
    rw [List.mem_filter, List.mem_filter]
    simp only [keep_pred, Bool.and_eq_true, decide_eq_true_eq]
    constructor
    · rintro ⟨⟨hc, hcy⟩, hlen, hspread⟩
      have hne : valid_values (coerce_numeric_cols df [yc]) c ≠ [] := by
        intro he; rw [he] at hlen; simp at hlen
      exact ⟨hc, hcy, hlen, (spread_iff_two_distinct hne).mp hspread⟩
    · rintro ⟨hc, hcy, hlen, hex⟩
      have hne : valid_values (coerce_numeric_cols df [yc]) c ≠ [] := by
        intro he; rw [he] at hlen; simp at hlen
      exact ⟨⟨hc, by simpa using hcy⟩, hlen, (spread_iff_two_distinct hne).mpr hex⟩
  · intro df lt h
    obtain ⟨⟨yc, _, hrec⟩, _⟩ := to_long_vertical_inv h
    rw [hrec]
    exact sortRecs_sorted _
  · decide

/-- C2 witness: the keep characterization instantiated at the concrete
table and column `m1`, and sortedness of the concrete result. -/
theorem c2_witness :
    ("m1" ∈ vertical_keep c2_df "year" ↔
      "m1" ∈ c2_df.cols ∧ "m1" ≠ "year" ∧
      2 ≤ (valid_values (coerce_numeric_cols c2_df ["year"]) "m1").length ∧
      ∃ a ∈ valid_values (coerce_numeric_cols c2_df ["year"]) "m1",
        ∃ b ∈ valid_values (coerce_numeric_cols c2_df ["year"]) "m1", a ≠ b) ∧
    c2_lt.records.Pairwise (fun x y => recLe x y = true) :=
  ⟨c2_vertical_keep_and_sorted.1 c2_df "year" (by decide) (by decide) "m1",
   c2_vertical_keep_and_sorted.2.1 c2_df c2_lt c2_vertical_keep_and_sorted.2.2⟩

/- ------------------------------------------------------------------ -/
/- Claim C5.                                                          -/
/- ------------------------------------------------------------------ -/

theorem find?_some_first {α : Type} (p : α → Bool) :
    ∀ (l : List α) (c : α), l.find? p = some c →
      p c = true ∧ ∃ i, l.get? i = some c ∧
        ∀ j, j < i → ∀ d, l.get? j = some d → p d = false := by
  intro l
  induction l with
  | nil => intro c h; simp at h
  | cons a t ih =>
    intro c h
    by_cases hpa : p a = true
    · rw [List.find?_cons_of_pos _ hpa] at h
      cases h
      exact ⟨hpa, 0, rfl, fun j hj => absurd hj (by omega)⟩
    · rw [List.find?_cons_of_neg _ (by simpa using hpa)] at h
      obtain ⟨hpc, i, hget, hfirst⟩ := ih c h
      refine ⟨hpc, i + 1, by simpa using hget, ?_⟩
      intro j hj d hd
      rcases j with _ | j
      · cases hd
        simpa using hpa
      · exact hfirst j (by omega) d (by simpa using hd)

theorem mean_gt_iff (cnt len : Nat) (hle : cnt ≤ len) :
    ((0.6 : ℚ) < (cnt : ℚ) / (len : ℚ)) ↔ 3 * len < 5 * cnt := by
  rcases Nat.eq_zero_or_pos len with h0 | hpos
  · subst h0
    have hc : cnt = 0 := by omega
    subst hc
    norm_num
  · have hl : (0 : ℚ) < (len : ℚ) := by exact_mod_cast hpos
    rw [lt_div_iff₀ hl]
    constructor
    · intro h
      have h5 : (3 : ℚ) * len < 5 * cnt := by nlinarith
      exact_mod_cast h5
    · intro h
      have h5 : (3 : ℚ) * len < 5 * cnt := by exact_mod_cast h
      nlinarith

/-- C5: on a cleaned table with unique column names none of which matches a
time-axis keyword, vertical detection falls back to values: a column
qualifies exactly when at least `max(3, row_count/3)` of its values parse as
numbers and strictly more than 60 % of the parsed values lie within
[1900, 2100]; the first qualifying column in column order is selected; and
if no column qualifies, `to_long_vertical` returns the no-orientation
signal `none`. -/
theorem c5_value_fallback (df : DF) (_hnd : df.cols.Nodup)
    (hname : ∀ c ∈ df.cols, name_hit c = false) :
    (∀ c, find_year_col df = some c →
      year_value_pred df c = true ∧
        ∃ i, df.cols.get? i = some c ∧
          ∀ j, j < i → ∀ d, df.cols.get? j = some d → year_value_pred df d = false) ∧
    (∀ c, year_value_pred df c = true ↔
      max 3 (df.rows.length / 3) ≤ ((df.colByName c).filterMap parseFloat).length ∧
      3 * ((df.colByName c).filterMap parseFloat).length <
        5 * ((df.colByName c).filterMap parseFloat).countP
              (fun v => decide (1900 ≤ v ∧ v ≤ 2100))) ∧
    ((∀ c ∈ df.cols, year_value_pred df c = false) → to_long_vertical df = none) := by
  have hnone1 : df.cols.find? name_hit = none :=
    List.find?_eq_none.mpr (fun c hc => by simp [hname c hc])
  refine ⟨?_, ?_, ?_⟩
  · intro c hc
    rw [find_year_col, hnone1] at hc
    exact find?_some_first _ _ c hc
  · intro c
    simp only [year_value_pred, Bool.and_eq_true, decide_eq_true_eq]
    constructor
    · rintro ⟨h1, h2⟩
      refine ⟨h1, ?_⟩
      exact (mean_gt_iff _ _ (List.countP_le_length _)).mp h2
    · rintro ⟨h1, h2⟩
      refine ⟨h1, ?_⟩
      exact (mean_gt_iff _ _ (List.countP_le_length _)).mpr h2
  · intro hall
    have hnone2 : df.cols.find? (year_value_pred df) = none :=
      List.find?_eq_none.mpr (fun c hc => by simp [hall c hc])
    have hnoyc : find_year_col df = none := by
      rw [find_year_col, hnone1, hnone2]
    simp only [to_long_vertical, hnoyc]

/-- C5 witness: on the concrete table `⟨["a","b"], [[x,2019],[y,2020],[z,2021]]⟩`
with no keyword matches, the fallback selects column `b` (3 of 3 values
parse, all in range) and no earlier column qualifies. -/
theorem c5_witness :
    year_value_pred c5_df "b" = true ∧
      ∃ i, c5_df.cols.get? i = some "b" ∧
        ∀ j, j < i → ∀ d, c5_df.cols.get? j = some d → year_value_pred c5_df d = false :=
  (c5_value_fallback c5_df (by decide) (by decide)).1 "b" (by decide)

/- ------------------------------------------------------------------ -/
/- Claim C3.                                                          -/
/- ------------------------------------------------------------------ -/

/-- C3: the horizontal transformation of the table with header
`["지표","2020","2021","2022"]` and rows `["혼인율","10%","9%","8%"]`,
`["이혼율","3","3","3"]` yields exactly 3 records, all for metric 혼인율
with values 0.10, 0.09, 0.08 and the percent flag set, while 이혼율 is
dropped for zero variance; and in general a metric of the result is flagged
percent exactly when some time-axis cell of a row carrying that label
contains a literal `%` in its raw text. -/
theorem c3_horizontal_percent :
    to_long_horizontal c3_df = some c3_lt ∧
    (∀ (df : DF) (lt : LongTable), to_long_horizontal df = some lt →
      ∀ m, (∃ rec ∈ lt.records, rec.metric = m) →
        (m ∈ lt.percentMetrics ↔
          ∃ r ∈ (horizontal_df2 df).rows,
            strTrim (getCellBy (horizontal_df2 df).cols r (horizontal_mcol df)) = m ∧
            ∃ yc ∈ horizontal_year_cols df,
              '%' ∈ (getCellBy (horizontal_df2 df).cols r yc).data)) := by
  constructor
  · decide
  · intro df lt h m hm
    obtain ⟨hrec, hpct, _⟩ := to_long_horizontal_inv h
    obtain ⟨rec, hrecmem, hmet⟩ := hm
    rw [hrec] at hrecmem
    have hok : m ∈ horizontal_ok_metrics df := by
      have := List.mem_filter.mp hrecmem
      rw [← hmet]
      simpa using this.2
    rw [hpct]
    rw [List.mem_filter]
    constructor
    · rintro ⟨hraw, _⟩
      rw [horizontal_pct_raw, List.mem_dedup] at hraw
      rcases List.mem_map.mp hraw with ⟨r, hrf, hrm⟩
      rcases List.mem_filter.mp hrf with ⟨hrrows, hrp⟩
      refine ⟨r, hrrows, hrm, ?_⟩
      have hrp' : row_has_pct (horizontal_df2 df).cols (horizontal_year_cols df) r = true := hrp
      rw [row_has_pct, List.any_eq_true] at hrp'
      rcases hrp' with ⟨yc, hyc, hcont⟩
      exact ⟨yc, hyc, by simpa using hcont⟩
    · rintro ⟨r, hrrows, hrm, yc, hyc, hcont⟩
      refine ⟨?_, by simpa using hok⟩
      rw [horizontal_pct_raw, List.mem_dedup]
      refine List.mem_map.mpr ⟨r, ?_, hrm⟩
      refine List.mem_filter.mpr ⟨hrrows, ?_⟩
      rw [row_has_pct, List.any_eq_true]
      exact ⟨yc, hyc, by simpa using hcont⟩

/-- C3 witness: the percent rule instantiated at the concrete horizontal
table and the metric 혼인율 of its result. -/
theorem c3_witness :
    "혼인율" ∈ c3_lt.percentMetrics ↔
      ∃ r ∈ (horizontal_df2 c3_df).rows,
        strTrim (getCellBy (horizontal_df2 c3_df).cols r (horizontal_mcol c3_df)) = "혼인율" ∧
        ∃ yc ∈ horizontal_year_cols c3_df,
          '%' ∈ (getCellBy (horizontal_df2 c3_df).cols r yc).data :=
  c3_horizontal_percent.2 c3_df c3_lt c3_horizontal_percent.1 "혼인율"
    ⟨⟨2020, "혼인율", 1/10⟩, by decide, rfl⟩

/- ------------------------------------------------------------------ -/
/- The executable `NUM_RE` matcher agrees with the declarative         -/
/- pattern `NumPat`.                                                   -/
/- ------------------------------------------------------------------ -/

theorem numEnd_head_cases {c : Char} {rr : List Char} (h : numEnd (c :: rr) = true) :
    isWS c = true ∨ (c = '%' ∧ rr = []) := by
  by_cases hcw : isWS c = true
  · exact Or.inl hcw
  · right
    have hcf : isWS c = false := by simpa using hcw
    rw [numEnd, dropWhile_cons_head hcf] at h
    rcases rr with _ | ⟨d, rr2⟩
    · by_cases hc : c = '%'
      · exact ⟨hc, rfl⟩
      · simp [hc] at h
    · simp at h

theorem numEnd_head_not_digit {c : Char} {rr : List Char} (h : numEnd (c :: rr) = true) :
    c.isDigit = false := by
  rcases numEnd_head_cases h with hw | ⟨rfl, _⟩
  · exact not_digit_of_isWS hw
  · decide

theorem numEnd_head_not_dot {c : Char} {rr : List Char} (h : numEnd (c :: rr) = true) :
    c ≠ '.' := by
  rcases numEnd_head_cases h with hw | ⟨rfl, _⟩
  · exact isWS_ne_dot hw
  · decide

theorem numEnd_iff (l : List Char) :
    numEnd l = true ↔
      ∃ ws2 pct, l = ws2 ++ pct ∧ (∀ c ∈ ws2, isWS c = true) ∧
        (pct = [] ∨ pct = ['%']) := by
  constructor
  · intro h
    rcases hd : l.dropWhile isWS with _ | ⟨c, t⟩
    · exact ⟨l, [], by simp, List.dropWhile_eq_nil_iff.mp hd, Or.inl rfl⟩
    · have hpat : c :: t = ['%'] := by
        rw [numEnd, hd] at h
        rcases t with _ | ⟨d, t2⟩
        · by_cases hc : c = '%'
          · rw [hc]
          · simp [hc] at h
        · simp at h
      refine ⟨l.takeWhile isWS, ['%'], ?_, fun c hc => List.mem_takeWhile_imp hc, Or.inr rfl⟩
      rw [← hpat, ← hd, List.takeWhile_append_dropWhile]
  · rintro ⟨ws2, pct, rfl, hws, hpct⟩
    have hd : (ws2 ++ pct).dropWhile isWS = pct.dropWhile isWS := dropWhile_append_all pct hws
    rcases hpct with rfl | rfl
    · have h0 : (ws2 ++ ([] : List Char)).dropWhile isWS = [] := hd
      rw [numEnd, h0]
    · have h1 : (ws2 ++ (['%'] : List Char)).dropWhile isWS = ['%'] := by
        rw [hd]; rfl
      rw [numEnd, h1]
      rfl

theorem numAfterDigits_head_not_dc {c : Char} {rr : List Char}
    (h : numAfterDigits (c :: rr) = true) : isDigitOrComma c = false := by
  by_cases hc : c = '.'
  · subst hc; decide
  · rw [numAfterDigits] at h
    · rcases numEnd_head_cases h with hw | ⟨rfl, _⟩
      · exact not_dc_of_isWS hw
      · decide
    · intro r heq; cases heq; exact hc rfl

theorem numAfterDigits_iff (l : List Char) :
    numAfterDigits l = true ↔
      ∃ frac rest, l = frac ++ rest ∧
        (frac = [] ∨ ∃ fd, frac = '.' :: fd ∧ fd ≠ [] ∧ ∀ c ∈ fd, c.isDigit = true) ∧
        numEnd rest = true := by
  constructor
  · intro h
    rcases l with _ | ⟨c, r⟩
    · exact ⟨[], [], rfl, Or.inl rfl, h⟩
    · by_cases hc : c = '.'
      · subst hc
        rw [numAfterDigits] at h
        split at h
        · exact absurd h (by simp)
        · rename_i hfd
          refine ⟨'.' :: r.takeWhile Char.isDigit, r.dropWhile Char.isDigit, ?_, ?_, h⟩
          · rw [List.cons_append, List.takeWhile_append_dropWhile]
          · refine Or.inr ⟨r.takeWhile Char.isDigit, rfl, ?_, fun c hc => List.mem_takeWhile_imp hc⟩
            intro he
            rw [he] at hfd
            exact hfd rfl
      · rw [numAfterDigits] at h
        · exact ⟨[], c :: r, rfl, Or.inl rfl, h⟩
        · intro r2 heq; cases heq; exact hc rfl
  · rintro ⟨frac, rest, rfl, hfrac, hend⟩
    rcases hfrac with rfl | ⟨fd, rfl, hfd, hdig⟩
    · rcases rest with _ | ⟨c, rr⟩
      · exact hend
      · by_cases hc : c = '.'
        · subst hc
          exact absurd (numEnd_head_not_dot hend) (by simp)
        · rw [List.nil_append, numAfterDigits]
          · exact hend
          · intro r2 heq; cases heq; exact hc rfl
    · have hrest_take : rest.takeWhile Char.isDigit = [] := by
        rcases rest with _ | ⟨c, rr⟩
        · rfl
        · exact takeWhile_cons_head (numEnd_head_not_digit hend)
      have hrest_drop : rest.dropWhile Char.isDigit = rest := by
        rcases rest with _ | ⟨c, rr⟩
        · rfl
        · exact dropWhile_cons_head (numEnd_head_not_digit hend)
      have hshape : ('.' :: fd) ++ rest = '.' :: (fd ++ rest) := rfl
      rw [hshape, numAfterDigits]
      have htake : (fd ++ rest).takeWhile Char.isDigit = fd := by
        rw [takeWhile_append_all rest hdig, hrest_take, List.append_nil]
      have hdrop : (fd ++ rest).dropWhile Char.isDigit = rest := by
        rw [dropWhile_append_all rest hdig, hrest_drop]
      rw [htake, hdrop]
      have : fd.isEmpty = false := by
        rcases fd with _ | ⟨d, fd2⟩
        · exact absurd rfl hfd
        · rfl
      rw [this]
      simpa using hend

theorem numCore_iff (l1 : List Char) :
    numCore l1 = true ↔
      ∃ ws1 ds rest, l1 = ws1 ++ ds ++ rest ∧ (∀ c ∈ ws1, isWS c = true) ∧
        ds ≠ [] ∧ (∀ c ∈ ds, isDigitOrComma c = true) ∧ numAfterDigits rest = true := by
  constructor
  · intro h
    rw [numCore] at h
    split at h
    · exact absurd h (by simp)
    · rename_i hds
      refine ⟨l1.takeWhile isWS, (l1.dropWhile isWS).takeWhile isDigitOrComma,
        (l1.dropWhile isWS).dropWhile isDigitOrComma, ?_, ?_, ?_, ?_, h⟩
      · rw [List.append_assoc, List.takeWhile_append_dropWhile, List.takeWhile_append_dropWhile]
      · exact fun c hc => List.mem_takeWhile_imp hc
      · intro he
        rw [he] at hds
        exact hds rfl
      · exact fun c hc => List.mem_takeWhile_imp hc
  · rintro ⟨ws1, ds, rest, rfl, hws, hds, hdc, hafter⟩
    rcases ds with _ | ⟨d, ds'⟩
    · exact absurd rfl hds
    · have hrest_head : rest.takeWhile isDigitOrComma = [] := by
        rcases rest with _ | ⟨c, rr⟩
        · rfl
        · exact takeWhile_cons_head (numAfterDigits_head_not_dc hafter)
      have hrest_drop : rest.dropWhile isDigitOrComma = rest := by
        rcases rest with _ | ⟨c, rr⟩
        · rfl
        · exact dropWhile_cons_head (numAfterDigits_head_not_dc hafter)
      have hdrop_ws : (ws1 ++ (d :: ds') ++ rest).dropWhile isWS = (d :: ds') ++ rest := by
        rw [List.append_assoc, dropWhile_append_all _ hws, List.cons_append]
        exact dropWhile_cons_head (not_isWS_of_dc (hdc d (by simp)))
      rw [numCore, hdrop_ws]
      have htake : ((d :: ds') ++ rest).takeWhile isDigitOrComma = d :: ds' := by
        rw [takeWhile_append_all rest hdc, hrest_head, List.append_nil]
      have hdrop : ((d :: ds') ++ rest).dropWhile isDigitOrComma = rest := by
        rw [dropWhile_append_all rest hdc, hrest_drop]
      rw [htake, hdrop]
      simpa using hafter

theorem numReMatch_iff_numPat (s : String) : numReMatch s = true ↔ NumPat s := by
  constructor
  · intro h
    rw [numReMatch] at h
    split at h
    · rename_i r hdata
      obtain ⟨ws1, ds, rest, hr, hws, hds, hdc, hafter⟩ := (numCore_iff r).mp h
      obtain ⟨frac, rest2, hrest, hfrac, hend⟩ := (numAfterDigits_iff rest).mp hafter
      obtain ⟨ws2, pct, hrest2, hws2, hpct⟩ := (numEnd_iff rest2).mp hend
      refine ⟨['-'], ws1, ds, frac, ws2, pct, ?_, Or.inr rfl, hws, hds, hdc, hfrac, hws2, hpct⟩
      rw [hdata, hr, hrest, hrest2]
      simp [List.append_assoc]
    · rename_i l hne
      obtain ⟨ws1, ds, rest, hr, hws, hds, hdc, hafter⟩ := (numCore_iff s.data).mp h
      obtain ⟨frac, rest2, hrest, hfrac, hend⟩ := (numAfterDigits_iff rest).mp hafter
      obtain ⟨ws2, pct, hrest2, hws2, hpct⟩ := (numEnd_iff rest2).mp hend
      refine ⟨[], ws1, ds, frac, ws2, pct, ?_, Or.inl rfl, hws, hds, hdc, hfrac, hws2, hpct⟩
      rw [hr, hrest, hrest2]
      simp [List.append_assoc]
  · rintro ⟨sign, ws1, ds, frac, ws2, pct, hdata, hsign, hws, hds, hdc, hfrac, hws2, hpct⟩
    have hafter : numAfterDigits (frac ++ ws2 ++ pct) = true := by
      apply (numAfterDigits_iff _).mpr
      refine ⟨frac, ws2 ++ pct, by rw [List.append_assoc], hfrac, ?_⟩
      exact (numEnd_iff _).mpr ⟨ws2, pct, rfl, hws2, hpct⟩
    have hcore : numCore (ws1 ++ ds ++ (frac ++ ws2 ++ pct)) = true := by
      apply (numCore_iff _).mpr
      exact ⟨ws1, ds, frac ++ ws2 ++ pct, rfl, hws, hds, hdc, hafter⟩
    have hshape : s.data = ws1 ++ ds ++ (frac ++ ws2 ++ pct) ∨
        s.data = '-' :: (ws1 ++ ds ++ (frac ++ ws2 ++ pct)) := by
      rcases hsign with rfl | rfl
      · left; rw [hdata]; simp [List.append_assoc]
      · right; rw [hdata]; simp [List.append_assoc]
    have hhead_not_minus : ∀ c r, ws1 ++ ds ++ (frac ++ ws2 ++ pct) = c :: r → c ≠ '-' := by
      intro c r hcr
      rcases ws1 with _ | ⟨w, ws1'⟩
      · rcases ds with _ | ⟨d, ds'⟩
        · exact absurd rfl hds
        · have : d = c := by
            have := hcr
            simp only [List.nil_append, List.cons_append] at this
            exact (List.cons.injEq _ _ _ _ ▸ this).1
          subst this
          exact dc_ne_minus (hdc d (by simp))
      · have : w = c := by
          have := hcr
          simp only [List.cons_append] at this
          exact (List.cons.injEq _ _ _ _ ▸ this).1
        subst this
        exact isWS_ne_minus (hws w (by simp))
    rw [numReMatch]
    rcases hshape with hsh | hsh
    · split
      · rename_i r hdata2
        rw [hsh] at hdata2
        exact absurd rfl (hhead_not_minus '-' r hdata2)
      · rw [hsh]
        exact hcore
    · split
      · rename_i r hdata2
        rw [hsh] at hdata2
        cases hdata2
        exact hcore
      · rename_i l hne
        exact absurd (hsh.symm) (by
          intro hcon
          exact hne _ hcon.symm)

/- ------------------------------------------------------------------ -/
/- Claim C1.                                                          -/
/- ------------------------------------------------------------------ -/

/-- C1: for every input cell, the cell normalizer returns not-a-number with
`is_percent = false` on a missing cell and on any cell whose trimmed text
does not admit the anchored decomposition "optional `-`, optional
whitespace, digits with optional comma grouping, optional decimal fraction,
optional whitespace, optional trailing `%`"; when the pattern matches, the
`%` and `,` characters are stripped and the remainder parsed, the value is
divided by 100 exactly when the trimmed string ends in `%` (and `is_percent`
is true exactly then), and a parse failure after the match still yields
not-a-number with `is_percent = false` rather than an exception. -/
theorem c1_cell_normalizer (x : Option String) :
    (x = none → to_number_and_is_percent x = (none, false)) ∧
    (∀ s, x = some s → ¬ NumPat (strTrim s) → to_number_and_is_percent x = (none, false)) ∧
    (∀ s, x = some s → NumPat (strTrim s) →
      ((strTrim s).data.getLast? = some '%' →
        to_number_and_is_percent x =
          (match parseFloat (stripPctComma (strTrim s)) with
           | some v => (some (v / 100), true)
           | none => (none, false))) ∧
      ((strTrim s).data.getLast? ≠ some '%' →
        to_number_and_is_percent x =
          (match parseFloat (stripPctComma (strTrim s)) with
           | some v => (some v, false)
           | none => (none, false)))) := by
  refine ⟨?_, ?_, ?_⟩
  · rintro rfl; rfl
  · rintro s rfl hnp
    have hm : numReMatch (strTrim s) = false := by
      cases hmm : numReMatch (strTrim s)
      · rfl
      · exact absurd ((numReMatch_iff_numPat _).mp hmm) hnp
    simp [to_number_and_is_percent, hm]
  · rintro s rfl hnp
    have hm : numReMatch (strTrim s) = true := (numReMatch_iff_numPat _).mpr hnp
    constructor
    · intro hpc
      cases hp : parseFloat (stripPctComma (strTrim s)) with
      | none => simp [to_number_and_is_percent, hm, hp]
      | some v => simp [to_number_and_is_percent, hm, hp, hpc]
    · intro hpc
      cases hp : parseFloat (stripPctComma (strTrim s)) with
      | none => simp [to_number_and_is_percent, hm, hp]
      | some v => simp [to_number_and_is_percent, hm, hp, hpc]

/-- C1 witness: the percent branch instantiated on the cell `"12.5%"`,
whose normalized value is `12.5 / 100 = 1/8`. -/
theorem c1_witness :
    to_number_and_is_percent (some "12.5%") = (some ((1 : ℚ) / 8), true) := by
  have hnp : NumPat (strTrim "12.5%") := by
    have hts : strTrim "12.5%" = "12.5%" := by decide
    rw [hts]
    exact ⟨[], [], ['1', '2'], ['.', '5'], [], ['%'], by decide, Or.inl rfl, by decide,
      by decide, by decide, Or.inr ⟨['5'], rfl, by decide, by decide⟩, by decide, Or.inr rfl⟩
  have h := ((c1_cell_normalizer (some "12.5%")).2.2 "12.5%" rfl hnp).1 (by decide)
  rw [h]
  decide

/- ------------------------------------------------------------------ -/
/- Claim C9.                                                          -/
/- ------------------------------------------------------------------ -/

/-- C9 counterexample: under the program's IEEE-754 binary64 arithmetic the
exact round-trip fails.  The cell `"7%"` stores the double `7.0 / 100.0 =
5044031582654956 / 2 ^ 56` with the percent flag set, while the directly
parsed stripped string `"7"` is exactly 7; multiplying the stored value by
100 — exactly or as the rounded double product — does not recover 7
(CPython: `7.0 / 100.0 * 100.0 == 7.000000000000001`). -/
theorem c9_counterexample :
    to_number_double (some "7%") = (some ((5044031582654956 : ℚ) / 2 ^ 56), true) ∧
    to_number_double (some "7") = (some (7 : ℚ), false) ∧
    ((5044031582654956 : ℚ) / 2 ^ 56) * 100 ≠ 7 ∧
    roundB64 (((5044031582654956 : ℚ) / 2 ^ 56) * 100) ≠ 7 :=
  ⟨by decide, by decide, by decide, by decide⟩

/-- C9 (amended): in exact rational arithmetic the normalizer round-trips —
for every string matching the numeric pattern whose stripped digits parse to
`r`, the returned value `v` satisfies `v * 100 = r` when the percent flag is
set and `v = r` otherwise.  Under the program's IEEE-754 binary64 arithmetic
(`to_number_double`) the equality holds only up to floating-point rounding
and fails exactly, e.g. at `"7%"` — see the counterexample. -/
theorem c9_roundtrip (s : String) (h1 : NumPat (strTrim s)) (r : ℚ)
    (h2 : parseFloat (stripPctComma (strTrim s)) = some r) :
    ∃ v, (to_number_and_is_percent (some s)).1 = some v ∧
      ((to_number_and_is_percent (some s)).2 = true → v * 100 = r) ∧
      ((to_number_and_is_percent (some s)).2 = false → v = r) := by
  have hm : numReMatch (strTrim s) = true := (numReMatch_iff_numPat _).mpr h1
  by_cases hpc : (strTrim s).data.getLast? = some '%'
  · refine ⟨r / 100, ?_, ?_, ?_⟩
    · simp [to_number_and_is_percent, hm, h2, hpc]
    · intro _
      rw [div_mul_cancel₀ r (by norm_num : (100 : ℚ) ≠ 0)]
    · intro hfalse
      simp [to_number_and_is_percent, hm, h2, hpc] at hfalse
  · refine ⟨r, ?_, ?_, fun _ => rfl⟩
    · simp [to_number_and_is_percent, hm, h2, hpc]
    · intro htrue
      simp [to_number_and_is_percent, hm, h2, hpc] at htrue

/-- C9 witness: the round-trip on `"10%"`, whose value `1/10` times 100
recovers the directly parsed `10`. -/
theorem c9_witness :
    ∃ v, (to_number_and_is_percent (some "10%")).1 = some v ∧
      ((to_number_and_is_percent (some "10%")).2 = true → v * 100 = 10) ∧
      ((to_number_and_is_percent (some "10%")).2 = false → v = 10) := by
  have hnp : NumPat (strTrim "10%") := by
    have hts : strTrim "10%" = "10%" := by decide
    rw [hts]
    exact ⟨[], [], ['1', '0'], [], [], ['%'], by decide, Or.inl rfl, by decide,
      by decide, by decide, Or.inl rfl, by decide, Or.inr rfl⟩
  exact c9_roundtrip "10%" hnp 10 (by decide)

/- ------------------------------------------------------------------ -/
/- Claim C4.                                                          -/
/- ------------------------------------------------------------------ -/

theorem pick_aux_spec (ts : List (List (List (Option String)))) :
    ∀ k : Nat,
      (∀ i, List.findIdx? (fun t => (table_long t).isSome) ts k = some i →
        ∃ t l, ts.get? (i - k) = some t ∧ table_long t = some l ∧ k ≤ i ∧
          pick_aux ((List.enumFrom k ts).map (fun it => ((it.1 : Int), it.2))) =
            some ((i : Int), clean_table (rawToDF t), l)) ∧
      (List.findIdx? (fun t => (table_long t).isSome) ts k = none →
        pick_aux ((List.enumFrom k ts).map (fun it => ((it.1 : Int), it.2))) = none) := by
  induction ts with
  | nil =>
    intro k
    exact ⟨fun i hi => by simp [List.findIdx?] at hi, fun _ => rfl⟩
  | cons a rest ih =>
    intro k
    have henum : (List.enumFrom k (a :: rest)).map (fun it => ((it.1 : Int), it.2)) =
        ((k : Int), a) :: (List.enumFrom (k + 1) rest).map (fun it => ((it.1 : Int), it.2)) := rfl
    rcases hv : to_long_vertical (clean_table (rawToDF a)) with _ | l
    · rcases hh : to_long_horizontal (clean_table (rawToDF a)) with _ | l
      · -- candidate `a` fails; the pipeline moves on
        have hta : table_long a = none := by
          simp only [table_long, hv, hh]
        have hpick : pick_aux ((List.enumFrom k (a :: rest)).map
            (fun it => ((it.1 : Int), it.2))) =
            pick_aux ((List.enumFrom (k + 1) rest).map (fun it => ((it.1 : Int), it.2))) := by
          rw [henum]
          simp only [pick_aux, hv, hh]
        have hfind : List.findIdx? (fun t => (table_long t).isSome) (a :: rest) k =
            List.findIdx? (fun t => (table_long t).isSome) rest (k + 1) := by
          rw [List.findIdx?_cons, hta]
          simp
        constructor
        · intro i hi
          rw [hfind] at hi
          obtain ⟨t, l, hget, htl, hki, hpa⟩ := (ih (k + 1)).1 i hi
          refine ⟨t, l, ?_, htl, by omega, by rw [hpick]; exact hpa⟩
          have : i - k = (i - (k + 1)) + 1 := by omega
          rw [this]
          simpa using hget
        · intro hn
          rw [hfind] at hn
          rw [hpick]
          exact (ih (k + 1)).2 hn
      · -- horizontal succeeds
        have hta : table_long a = some l := by
          simp only [table_long, hv, hh]
        constructor
        · intro i hi
          rw [List.findIdx?_cons, hta] at hi
          simp only [Option.isSome_some, if_true] at hi
          cases hi
          refine ⟨a, l, by simp, hta, le_refl k, ?_⟩
          rw [henum]
          simp only [pick_aux, hv, hh]
        · intro hn
          rw [List.findIdx?_cons, hta] at hn
          simp at hn
    · -- vertical succeeds
      have hta : table_long a = some l := by
        simp only [table_long, hv]
      constructor
      · intro i hi
        rw [List.findIdx?_cons, hta] at hi
        simp only [Option.isSome_some, if_true] at hi
        cases hi
        refine ⟨a, l, by simp, hta, le_refl k, ?_⟩
        rw [henum]
        simp only [pick_aux, hv]
      · intro hn
        rw [List.findIdx?_cons, hta] at hn
        simp at hn

/-- C4: over a non-empty candidate sequence tagged with its indices, the
table selector returns the result of the first candidate, in original
order, whose clean-then-vertical-then-horizontal pipeline yields a long
table, together with that candidate's index; if no candidate succeeds it
returns index 0 with the first candidate's cleaned table and an empty long
table, without raising. -/
theorem c4_first_visualizable (ts : List (List (List (Option String)))) (hne : ts ≠ []) :
    (∀ i, List.findIdx? (fun t => (table_long t).isSome) ts 0 = some i →
      ∃ t l, ts.get? i = some t ∧ table_long t = some l ∧
        pick_first_visualizable_long (ts.enum.map (fun it => ((it.1 : Int), it.2))) =
          ((i : Int), clean_table (rawToDF t), l)) ∧
    (List.findIdx? (fun t => (table_long t).isSome) ts 0 = none →
      ∃ t, ts.head? = some t ∧
        pick_first_visualizable_long (ts.enum.map (fun it => ((it.1 : Int), it.2))) =
          ((0 : Int), clean_table (rawToDF t), empty_long)) := by
  have hspec := pick_aux_spec ts 0
  constructor
  · intro i hi
    obtain ⟨t, l, hget, htl, _, hpa⟩ := hspec.1 i hi
    refine ⟨t, l, by simpa using hget, htl, ?_⟩
    rw [pick_first_visualizable_long.eq_def]
    have : ts.enum.map (fun it => ((it.1 : Int), it.2)) =
        (List.enumFrom 0 ts).map (fun it => ((it.1 : Int), it.2)) := rfl
    rw [this, hpa]
  · intro hn
    have hpa := hspec.2 hn
    rcases ts with _ | ⟨t0, rest⟩
    · exact absurd rfl hne
    · refine ⟨t0, rfl, ?_⟩
      rw [pick_first_visualizable_long.eq_def]
      have : (t0 :: rest).enum.map (fun it => ((it.1 : Int), it.2)) =
          (List.enumFrom 0 (t0 :: rest)).map (fun it => ((it.1 : Int), it.2)) := rfl
      rw [this, hpa]
      rfl

/-- C4 witness: over `[T1, T2]` where T1 yields no long-form result and T2
yields a valid vertical one, the selector returns T2's result with index 1,
never index 0. -/
theorem c4_witness :
    ∃ t l, [c4_t1, c4_t2].get? 1 = some t ∧ table_long t = some l ∧
      pick_first_visualizable_long ([c4_t1, c4_t2].enum.map (fun it => ((it.1 : Int), it.2))) =
        ((1 : Int), clean_table (rawToDF t), l) :=
  (c4_first_visualizable [c4_t1, c4_t2] (by decide)).1 1 (by decide)
